import Mathlib

/-!
# LibTorrent bridge: a shallow embedding of `LibTorrentBridgeC.cpp`

The bridge is a C-ABI layer over the libtorrent engine.  This development
embeds its functions as Lean definitions and proves the properties stated
about them.

Conventions of the embedding.

* A `const char*` argument is an `Option String`: `none` is the null
  pointer, `some s` a pointer to the characters `s` that precede the
  terminating NUL (one Lean `Char` per C `char`).
* A `double` is an exact dyadic rational (`Dbl`); the only operations the
  bridge performs on doubles (conversion from `int64_t`, division by 1024,
  comparison with 1024, fixed-point printing) are exact on that
  representation, apart from the rounding of the conversion itself, which
  is modelled bit-exactly.
* The engine (`lt::session`, `lt::torrent_handle`) is external.  A call into
  it is recorded in a log of `EngineCall`s and the answers it gives are
  fields of the objects the bridge reads (`is_valid`, `status`, the pending
  alerts) or parameters of the embedding (`Lt`).
* A non-null pointer to a heap object is the address of that object; the
  objects owned by a session are stored next to their addresses.
-/

namespace LibTorrentBridge

/-! ## C strings -/

/-- The terminating character of a C string. -/
def NUL : Char := Char.ofNat 0

/-- Function `strlen`: the number of characters before the terminator. -/
def strlen (s : String) : Nat := s.length

/-- Library function `std::strcpy`: copies the source up to (not including) its first NUL. -/
def strcpy : List Char → List Char
  | [] => []
  | c :: cs => if c = NUL then [] else c :: strcpy cs

/-- Function `copyString` (lines 33-37): a fresh buffer of `str.length() + 1` bytes
filled by `strcpy(result, str.c_str())`. -/
def copyString (str : String) : String := ⟨strcpy str.data⟩

/-- Library function `std::isxdigit` in the "C" locale: the ASCII codes of `0`-`9`, `a`-`f`
and `A`-`F`. -/
def isxdigit (c : Char) : Bool :=
  (48 ≤ c.toNat && c.toNat ≤ 57) || (97 ≤ c.toNat && c.toNat ≤ 102) ||
    (65 ≤ c.toNat && c.toNat ≤ 70)

/-- The loop of `LTIsValidInfoHash` (lines 318-322) over the characters
`infoHash[i]`, `i = 0 .. len - 1`: the first non-hex character returns
`false`, running off the end falls through to `return true`. -/
def infoHashLoop : List Char → Bool
  | [] => true
  | c :: cs => if !isxdigit c then false else infoHashLoop cs

/-- Function `LTIsValidInfoHash` (lines 310-325). -/
def LTIsValidInfoHash (infoHash : Option String) : Bool :=
  match infoHash with
  | none => false
  | some s =>
    let len := strlen s
    if len ≠ 40 ∧ len ≠ 64 then false
    else infoHashLoop s.data

/-- The hexadecimal digits as the specification lists them: `0-9`, `a-f`,
`A-F`. -/
def hexDigits : List Char := "0123456789abcdefABCDEF".data

/-- Function `LTCreateMagnetUri` (lines 301-308).  `infoHash` is streamed
unconditionally, `name` only when it is non-null and `strlen(name) > 0`;
the stream contents go through `copyString`. -/
def LTCreateMagnetUri (infoHash : String) (name : Option String) : String :=
  let oss := "magnet:?xt=urn:btih:" ++ infoHash
  let oss :=
    match name with
    | none => oss
    | some n => if strlen n > 0 then oss ++ "&dn=" ++ n else oss
  copyString oss

/-! ## Doubles and `LTHumanReadableSize` -/

/-- A finite `double` as the exact dyadic rational `num / 2 ^ shift`. -/
structure Dbl where
  num : Int
  shift : Nat
  deriving DecidableEq

/-- Number of binary digits of `a` (exact whenever `a < 2 ^ fuel`). -/
def bitLength : Nat → Nat → Nat
  | 0, _ => 0
  | fuel + 1, a => if a = 0 then 0 else bitLength fuel (a / 2) + 1

/-- Conversion `static_cast<double>(bytes)` for an `int64_t` (line 330): the magnitude
is rounded to 53 significant binary digits, to nearest and on a tie to the
even significand (IEEE-754 binary64, default rounding); the sign is kept.
A magnitude below `2 ^ 53` is converted exactly. -/
def int64ToDouble (bytes : Int) : Dbl :=
  let a := bytes.natAbs
  let e := bitLength 64 a - 53
  let q := a / 2 ^ e
  let r := a % 2 ^ e
  let m := if 2 ^ e < 2 * r ∨ (2 * r = 2 ^ e ∧ q % 2 = 1) then q + 1 else q
  ⟨Int.sign bytes * ((m * 2 ^ e : Nat) : Int), 0⟩

/-- The comparison `size >= 1024`. -/
def Dbl.ge1024 (size : Dbl) : Bool := decide (1024 * 2 ^ size.shift ≤ size.num)

/-- The assignment `size /= 1024`: dividing a double by a power of two only
lowers its exponent, so the quotient is exact. -/
def Dbl.div1024 (size : Dbl) : Dbl := ⟨size.num, size.shift + 10⟩

/-- The value of `size` in hundredths, rounded to nearest and on a tie to
even: what fixed notation with precision 2 prints, without the sign and the
decimal point. -/
def Dbl.hundredths (size : Dbl) : Nat :=
  let a := size.num.natAbs * 100
  let d := 2 ^ size.shift
  let q := a / d
  let r := a % d
  if d < 2 * r ∨ (2 * r = d ∧ q % 2 = 1) then q + 1 else q

/-- The text of `oss << std::fixed << std::setprecision(2) << size`: an
optional minus sign, the integer digits, a point and two fraction digits. -/
def Dbl.fixed2 (size : Dbl) : String :=
  let h := size.hundredths
  (if size.num < 0 then "-" else "") ++ Nat.repr (h / 100) ++ "." ++
    Nat.repr (h % 100 / 10) ++ Nat.repr (h % 10)

/-- The table `suffixes` (line 328). -/
def suffixes : List String := ["B", "KB", "MB", "GB", "TB", "PB"]

/-- The loop `while (size >= 1024 && suffixIndex < 5)` (lines 332-335); the
first argument bounds the number of iterations. -/
def sizeLoop : Nat → Dbl → Nat → Dbl × Nat
  | 0, size, suffixIndex => (size, suffixIndex)
  | fuel + 1, size, suffixIndex =>
    if size.ge1024 = true ∧ suffixIndex < 5 then
      sizeLoop fuel size.div1024 (suffixIndex + 1)
    else (size, suffixIndex)

/-- Function `LTHumanReadableSize` (lines 327-340).  The loop runs at most five
times because each iteration increments `suffixIndex`, which starts at 0
and must stay below 5. -/
def LTHumanReadableSize (bytes : Int) : String :=
  let r := sizeLoop 5 (int64ToDouble bytes) 0
  copyString (r.1.fixed2 ++ " " ++ suffixes.getD r.2 "")

/-! ## The engine as the bridge sees it -/

namespace lt

/-- The enumerators of `lt::torrent_status::state_t` that the bridge names,
with the values libtorrent gives them (`torrent_status.hpp`); the values 0
and 6 are the two unused enumerators kept for backwards compatibility. -/
def checking_files : Nat := 1

/-- The enumerator `lt::torrent_status::downloading_metadata`. -/
def downloading_metadata : Nat := 2

/-- The enumerator `lt::torrent_status::downloading`. -/
def downloading : Nat := 3

/-- The enumerator `lt::torrent_status::finished`. -/
def finished : Nat := 4

/-- The enumerator `lt::torrent_status::seeding`. -/
def seeding : Nat := 5

/-- The enumerator `lt::torrent_status::checking_resume_data`. -/
def checking_resume_data : Nat := 7

/-- The flag `lt::torrent_flags::paused` (bit 4 of `torrent_flags_t`). -/
def paused : Nat := 2 ^ 4

/-- The flag `lt::session::delete_files` (bit 0 of `remove_flags_t`). -/
def delete_files : Nat := 2 ^ 0

/-- The fields of `lt::torrent_status` that the bridge reads.  `state` is
the raw enumerator, `progress` the bit pattern of the `float`, `flags` the
value of the 64-bit flag set. -/
structure torrent_status where
  state : Nat
  progress : Nat
  download_rate : Int
  upload_rate : Int
  total_download : Int
  total_upload : Int
  num_peers : Int
  num_seeds : Int
  flags : Nat
  is_finished : Bool
  deriving DecidableEq

/-- An `lt::torrent_handle`: which engine torrent it names, and what the
engine answers to `is_valid()` and `status()` through it. -/
structure torrent_handle where
  id : Nat
  is_valid : Bool
  status : torrent_status
  deriving DecidableEq

/-- An `lt::add_torrent_params`: the two members the bridge assigns
(`save_path`, `ti`) and a token for everything else the magnet parser
filled in. -/
structure add_torrent_params where
  save_path : String
  ti : Option Nat
  rest : Nat
  deriving DecidableEq

/-- An `lt::alert`, reduced to the text of `message()`. -/
structure alert where
  message : String
  deriving DecidableEq

/-- The calls the bridge issues that change the engine. -/
inductive EngineCall where
  | add_torrent (params : add_torrent_params)
  | remove_torrent (h : torrent_handle) (flags : Nat)
  | pop_alerts
  | pause (h : torrent_handle)
  | resume (h : torrent_handle)
  | set_download_limit (h : torrent_handle) (limit : Int)
  | set_upload_limit (h : torrent_handle) (limit : Int)
  deriving DecidableEq

/-- An `lt::session`: the calls issued to it so far, oldest first, and its
queue of pending alerts, oldest first. -/
structure session where
  calls : List EngineCall
  alerts : List alert
  deriving DecidableEq

/-- Record one call. -/
def session.call (s : session) (c : EngineCall) : session :=
  { s with calls := s.calls ++ [c] }

/-- Library function `session::pop_alerts(&alerts)`: hands over every pending alert and
leaves the queue empty. -/
def session.pop_alerts (s : session) : List alert × session :=
  (s.alerts, { (s.call EngineCall.pop_alerts) with alerts := [] })

/-- The answers of the engine that the bridge cannot compute: loading a
torrent file (`lt::torrent_info(path, ec)`), parsing a magnet link
(`lt::parse_magnet_uri(uri, ec)`) and adding a torrent
(`session::add_torrent(params, ec)`).  `none` stands for a call that set
the error code. -/
structure Engine where
  torrent_info : String → Option Nat
  parse_magnet_uri : String → Option add_torrent_params
  add_torrent : session → add_torrent_params → Option torrent_handle

end lt

/-! ## The bridge types (`LibTorrentBridgeTypes.h`) -/

/-- The enumerator `LTStateCheckingFiles = 0` of `LTTorrentState`. -/
def LTStateCheckingFiles : Nat := 0

/-- The enumerator `LTStateDownloadingMetadata = 1`. -/
def LTStateDownloadingMetadata : Nat := 1

/-- The enumerator `LTStateDownloading = 2`. -/
def LTStateDownloading : Nat := 2

/-- The enumerator `LTStateFinished = 3`. -/
def LTStateFinished : Nat := 3

/-- The enumerator `LTStateSeeding = 4`. -/
def LTStateSeeding : Nat := 4

/-- The enumerator `LTStateCheckingResumeData = 5`. -/
def LTStateCheckingResumeData : Nat := 5

/-- The struct `LTTorrentStatus` (header lines 31-42); `progress` is the bit
pattern of the `float`. -/
structure LTTorrentStatus where
  state : Nat
  progress : Nat
  downloadRate : Int
  uploadRate : Int
  totalDownload : Int
  totalUpload : Int
  numPeers : Int
  numSeeds : Int
  isPaused : Bool
  isFinished : Bool
  deriving DecidableEq

/-- The value of `LTTorrentStatus status = {}`: every member zero. -/
def LTTorrentStatus.zeroInit : LTTorrentStatus :=
  { state := 0, progress := 0, downloadRate := 0, uploadRate := 0,
    totalDownload := 0, totalUpload := 0, numPeers := 0, numSeeds := 0,
    isPaused := false, isFinished := false }

/-- A non-null `lt::torrent_handle*`: the address and the handle stored
there. -/
structure HandlePtr where
  addr : Nat
  target : lt.torrent_handle
  deriving DecidableEq

/-- The struct `LTTorrent` (lines 27-30): `handle` may be null; `session`
is the address of the owning `LTSession`. -/
structure LTTorrent where
  handle : Option HandlePtr
  session : Nat
  deriving DecidableEq

/-- The struct `LTSession` (lines 20-25).  `handles` lists the owned
`unique_ptr`s in vector order; `alertCallback` is `none` for a null function
pointer. -/
structure LTSession where
  session : lt.session
  handles : List HandlePtr
  alertCallback : Option Nat
  alertContext : Nat
  deriving DecidableEq

/-- The addresses held by the vector `handles`. -/
def LTSession.addrs (s : LTSession) : List Nat := s.handles.map HandlePtr.addr

/-- Every `unique_ptr` of `handles` owns its own live object, so the
addresses are pairwise distinct. -/
def LTSession.wellFormed (s : LTSession) : Prop := s.addrs.Nodup

/-- Function `LTSessionCreate` (lines 40-51) as far as the bridge state goes: no
owned handle, no callback, null context.  The engine it wraps is given. -/
def LTSessionCreate (engine : lt.session) : LTSession :=
  { session := engine, handles := [], alertCallback := none, alertContext := 0 }

/-- The common tail of the two add functions (lines 97-106 and 120-129):
`add_torrent(params, ec)`, the early return on error, then the allocation
of the owned handle at `newAddr`, the `LTTorrent` and the `push_back`. -/
def addToSession (env : lt.Engine) (sessionHandle : Nat) (session : LTSession)
    (params : lt.add_torrent_params) (newAddr : Nat) : Option LTTorrent × LTSession :=
  let called := { session with session := session.session.call (.add_torrent params) }
  match env.add_torrent session.session params with
  | none => (none, called)
  | some handle =>
    let torrentHandle : HandlePtr := ⟨newAddr, handle⟩
    let torrent : LTTorrent := ⟨some torrentHandle, sessionHandle⟩
    (some torrent, { called with handles := called.handles ++ [torrentHandle] })

/-- Function `LTSessionAddTorrent` (lines 85-107).  `sessionHandle` is the address of
`session`; `newAddr` is the address `std::make_unique` returns when the
code reaches it. -/
def LTSessionAddTorrent (env : lt.Engine) (sessionHandle : Nat) (session : LTSession)
    (torrentPath savePath : String) (newAddr : Nat) : Option LTTorrent × LTSession :=
  let params : lt.add_torrent_params := { save_path := savePath, ti := none, rest := 0 }
  match env.torrent_info torrentPath with
  | none => (none, session)
  | some ti => addToSession env sessionHandle session { params with ti := some ti } newAddr

/-- Function `LTSessionAddMagnetUri` (lines 109-130). -/
def LTSessionAddMagnetUri (env : lt.Engine) (sessionHandle : Nat) (session : LTSession)
    (magnetUri savePath : String) (newAddr : Nat) : Option LTTorrent × LTSession :=
  match env.parse_magnet_uri magnetUri with
  | none => (none, session)
  | some params =>
    addToSession env sessionHandle session { params with save_path := savePath } newAddr

/-- Library function `std::find_if` over the vector: the position of the first element that
satisfies `p`, or the length of the vector (`end()`) when there is none. -/
def find_if {α : Type} (p : α → Bool) : List α → Nat
  | [] => 0
  | a :: as => if p a then 0 else find_if p as + 1

/-- Library function `vector::erase(it)`: drops the element at position `it`. -/
def erase {α : Type} : List α → Nat → List α
  | [], _ => []
  | _ :: as, 0 => as
  | a :: as, it + 1 => a :: erase as it

/-- Function `LTSessionRemoveTorrent` (lines 132-156). -/
def LTSessionRemoveTorrent (session : LTSession) (torrentHandle : Option LTTorrent)
    (deleteFiles : Bool) : LTSession :=
  match torrentHandle with
  | none => session
  | some torrent =>
    match torrent.handle with
    | none => session
    | some handle =>
      let flags := if deleteFiles then lt.delete_files else 0
      let engine := session.session.call (.remove_torrent handle.target flags)
      let it := find_if (fun h => h.addr == handle.addr) session.handles
      let handles :=
        if it ≠ session.handles.length then erase session.handles it else session.handles
      { session with session := engine, handles := handles }

/-- The guard `torrent && torrent->handle && torrent->handle->is_valid()`
shared by lines 195, 202, 209, 216 and 297: the handle when all three
hold. -/
def validHandle (torrentHandle : Option LTTorrent) : Option lt.torrent_handle :=
  match torrentHandle with
  | none => none
  | some torrent =>
    match torrent.handle with
    | none => none
    | some handle => if handle.target.is_valid then some handle.target else none

/-- Function `LTTorrentIsValid` (lines 295-298). -/
def LTTorrentIsValid (torrentHandle : Option LTTorrent) : Bool :=
  match torrentHandle with
  | none => false
  | some torrent =>
    match torrent.handle with
    | none => false
    | some handle => handle.target.is_valid

/-- Function `LTTorrentPause` (lines 193-198). -/
def LTTorrentPause (torrentHandle : Option LTTorrent) (engine : lt.session) : lt.session :=
  match validHandle torrentHandle with
  | some h => engine.call (.pause h)
  | none => engine

/-- Function `LTTorrentResume` (lines 200-205). -/
def LTTorrentResume (torrentHandle : Option LTTorrent) (engine : lt.session) : lt.session :=
  match validHandle torrentHandle with
  | some h => engine.call (.resume h)
  | none => engine

/-- Function `LTTorrentSetDownloadLimit` (lines 207-212). -/
def LTTorrentSetDownloadLimit (torrentHandle : Option LTTorrent) (limit : Int)
    (engine : lt.session) : lt.session :=
  match validHandle torrentHandle with
  | some h => engine.call (.set_download_limit h limit)
  | none => engine

/-- Function `LTTorrentSetUploadLimit` (lines 214-219). -/
def LTTorrentSetUploadLimit (torrentHandle : Option LTTorrent) (limit : Int)
    (engine : lt.session) : lt.session :=
  match validHandle torrentHandle with
  | some h => engine.call (.set_upload_limit h limit)
  | none => engine

/-- The `switch (s.state)` of `LTTorrentGetStatus` (lines 231-252). -/
def mapState (state : Nat) : Nat :=
  if state = lt.checking_files then LTStateCheckingFiles
  else if state = lt.downloading_metadata then LTStateDownloadingMetadata
  else if state = lt.downloading then LTStateDownloading
  else if state = lt.finished then LTStateFinished
  else if state = lt.seeding then LTStateSeeding
  else if state = lt.checking_resume_data then LTStateCheckingResumeData
  else LTStateDownloading

/-- Function `LTTorrentGetStatus` (lines 221-265).  The conversion of
`s.flags & lt::torrent_flags::paused` to `bool` is the test for non-zero. -/
def LTTorrentGetStatus (torrentHandle : Option LTTorrent) : LTTorrentStatus :=
  let status := LTTorrentStatus.zeroInit
  match validHandle torrentHandle with
  | none => status
  | some h =>
    let s := h.status
    { state := mapState s.state,
      progress := s.progress,
      downloadRate := s.download_rate,
      uploadRate := s.upload_rate,
      totalDownload := s.total_download,
      totalUpload := s.total_upload,
      numPeers := s.num_peers,
      numSeeds := s.num_seeds,
      isPaused := decide (s.flags &&& lt.paused ≠ 0),
      isFinished := s.is_finished }

/-! ## Vocabulary of the properties -/

/-- A torrent handle that is null, carries no engine handle, or carries an
engine handle that is not valid. -/
def InvalidTorrent (torrentHandle : Option LTTorrent) : Prop :=
  torrentHandle = none ∨
    ∃ torrent, torrentHandle = some torrent ∧
      (torrent.handle = none ∨
        ∃ p, torrent.handle = some p ∧ p.target.is_valid = false)

/-- A torrent handle that carries the valid engine handle `h`. -/
def ValidTorrent (torrentHandle : Option LTTorrent) (h : lt.torrent_handle) : Prop :=
  ∃ torrent p, torrentHandle = some torrent ∧ torrent.handle = some p ∧
    p.target = h ∧ h.is_valid = true

/-- The six engine states that have a namesake among the bridge states. -/
def namedEngineStates : List Nat :=
  [lt.checking_files, lt.downloading_metadata, lt.downloading, lt.finished,
    lt.seeding, lt.checking_resume_data]

/-- The six values of `LTTorrentState`. -/
def bridgeStates : List Nat :=
  [LTStateCheckingFiles, LTStateDownloadingMetadata, LTStateDownloading,
    LTStateFinished, LTStateSeeding, LTStateCheckingResumeData]

/-- An engine status in state `checking_files` with every other field zero,
no flag set. -/
def idleStatus : lt.torrent_status :=
  { state := lt.checking_files, progress := 0, download_rate := 0, upload_rate := 0,
    total_download := 0, total_upload := 0, num_peers := 0, num_seeds := 0,
    flags := 0, is_finished := false }

/-- A torrent of the session at address 1 whose engine handle, stored at
address 2, is valid and reports `idleStatus`. -/
def idleTorrent : LTTorrent :=
  { handle := some ⟨2, { id := 0, is_valid := true, status := idleStatus }⟩, session := 1 }

/-- An engine that loads only `a.torrent`, parses only the magnet link
`magnet:?xt=urn:btih:00`, and accepts a torrent unless its save path is
empty; every torrent it adds is valid and reports `idleStatus`. -/
def sampleEngine : lt.Engine :=
  { torrent_info := fun path => if path = "a.torrent" then some 7 else none,
    parse_magnet_uri := fun uri =>
      if uri = "magnet:?xt=urn:btih:00" then some ⟨"", none, 9⟩ else none,
    add_torrent := fun s params =>
      if params.save_path = "" then none
      else some { id := s.calls.length, is_valid := true, status := idleStatus } }

/-- A freshly created session whose engine has two pending alerts. -/
def sampleSession : LTSession :=
  LTSessionCreate { calls := [], alerts := [⟨"torrent added"⟩, ⟨"torrent finished"⟩] }

/-- The quotient `a / P` rounded to the nearest integer, a tie going to the
even one: the significand that `int64ToDouble` and `Dbl.hundredths` compute. -/
def halfEven (a P : Nat) : Nat :=
  if P < 2 * (a % P) ∨ (2 * (a % P) = P ∧ a / P % 2 = 1) then a / P + 1 else a / P

/-- The double nearest to the integer `b ≥ 0` is `d`: for the exponent `e`
of the binade of `b` (`e = 0` below `2 ^ 53`), `d` is a multiple `m * 2 ^ e`
of the spacing `2 ^ e` of the doubles there, at most half a spacing away
from `b`, and when it is exactly half a spacing away `m` is even. -/
def NearestDouble (b d : Int) : Prop :=
  ∃ e m : Nat, d = (m : Int) * 2 ^ e ∧ (e = 0 ∨ (2:Int) ^ (52 + e) ≤ b) ∧
    b < (2:Int) ^ (53 + e) ∧
    2 * d ≤ 2 * b + 2 ^ e ∧ 2 * b ≤ 2 * d + 2 ^ e ∧
    ((2 * d = 2 * b + 2 ^ e ∨ 2 * b = 2 * d + 2 ^ e) → m % 2 = 0)

/-- A session that owns two handles, stored at addresses 2 and 3. -/
def twoTorrentSession : LTSession :=
  { session := { calls := [], alerts := [] },
    handles := [⟨2, { id := 0, is_valid := true, status := idleStatus }⟩,
      ⟨3, { id := 1, is_valid := true, status := idleStatus }⟩],
    alertCallback := none, alertContext := 0 }

/-! # Theorems -/

/-! ## Helper lemmas: strings -/

theorem strcpy_eq_self (l : List Char) (h : NUL ∉ l) : strcpy l = l := by
  induction l with
  | nil => rfl
  | cons c cs ih =>
    have hc : c ≠ NUL := fun e => h (e ▸ List.mem_cons_self _ _)
    have hcs : NUL ∉ cs := fun m => h (List.mem_cons_of_mem _ m)
    simp [strcpy, hc, ih hcs]

theorem copyString_eq_self (s : String) (h : NUL ∉ s.data) : copyString s = s := by
  simp [copyString, strcpy_eq_self s.data h]

theorem digitChar_ne_NUL (n : Nat) : Nat.digitChar (n % 10) ≠ NUL := by
  have h : n % 10 < 10 := Nat.mod_lt _ (by decide)
  generalize n % 10 = m at h
  interval_cases m <;> decide

theorem toDigitsCore_noNUL (fuel n : Nat) (ds : List Char) (h : NUL ∉ ds) :
    NUL ∉ Nat.toDigitsCore 10 fuel n ds := by
  induction fuel generalizing n ds with
  | zero => simpa [Nat.toDigitsCore] using h
  | succ fuel ih =>
    have hd : NUL ∉ Nat.digitChar (n % 10) :: ds := by
      intro hm
      rcases List.mem_cons.1 hm with e | m
      · exact digitChar_ne_NUL _ e.symm
      · exact h m
    simp only [Nat.toDigitsCore]
    split_ifs
    · exact hd
    · exact ih _ _ hd

theorem repr_noNUL (n : Nat) : NUL ∉ (Nat.repr n).data := by
  simp only [Nat.repr, Nat.toDigits, List.asString]
  exact toDigitsCore_noNUL _ _ _ (List.not_mem_nil _)

theorem fixed2_noNUL (x : Dbl) : NUL ∉ x.fixed2.data := by
  have h1 := repr_noNUL (x.hundredths / 100)
  have h2 := repr_noNUL (x.hundredths % 100 / 10)
  have h3 := repr_noNUL (x.hundredths % 10)
  simp only [Dbl.fixed2, String.data_append, List.mem_append, not_or]
  refine ⟨⟨⟨⟨?_, h1⟩, by decide⟩, h2⟩, h3⟩
  split_ifs <;> decide

theorem suffix_noNUL (k : Nat) : NUL ∉ (suffixes.getD k "").data := by
  by_cases hk : k ≤ 5
  · interval_cases k <;> decide
  · have : suffixes.getD k "" = "" := by
      simp [suffixes, List.getD_eq_getElem?_getD]
      rw [List.getElem?_eq_none]
      · rfl
      · simp; omega
    rw [this]; decide

/-! ## Info-hash validation -/

theorem isxdigit_iff_mem (c : Char) : isxdigit c = true ↔ c ∈ hexDigits := by
  constructor
  · intro h
    have hc : c = Char.ofNat c.toNat := (Char.ofNat_toNat c).symm
    simp only [isxdigit, Bool.or_eq_true, Bool.and_eq_true, decide_eq_true_eq] at h
    have hr : (48 ≤ c.toNat ∧ c.toNat ≤ 57) ∨ (97 ≤ c.toNat ∧ c.toNat ≤ 102) ∨
        (65 ≤ c.toNat ∧ c.toNat ≤ 70) := by tauto
    generalize c.toNat = n at hc hr
    subst hc
    rcases hr with ⟨h1, h2⟩ | ⟨h1, h2⟩ | ⟨h1, h2⟩ <;> interval_cases n <;> decide
  · intro h
    simp only [hexDigits, List.mem_cons, List.mem_singleton] at h
    simp at h
    rcases h with h | h | h | h | h | h | h | h | h | h | h | h | h | h | h | h | h | h | h | h | h | h <;>
      subst h <;> decide

theorem infoHashLoop_iff (cs : List Char) :
    infoHashLoop cs = true ↔ ∀ c ∈ cs, c ∈ hexDigits := by
  induction cs with
  | nil => simp [infoHashLoop]
  | cons c cs ih =>
    cases hx : isxdigit c
    · have : c ∉ hexDigits := fun hm => by
        rw [← isxdigit_iff_mem, hx] at hm; exact Bool.noConfusion hm
      simp [infoHashLoop, hx, this]
    · have : c ∈ hexDigits := (isxdigit_iff_mem c).1 hx
      simp [infoHashLoop, hx, this, ih]

/-- C1: `LTIsValidInfoHash` returns true exactly for a non-null string whose
length is 40 or 64 and whose characters are all hexadecimal digits; the null
pointer and a 40-character string that starts with `g` are rejected. -/
theorem LTIsValidInfoHash_spec (infoHash : Option String) :
    (LTIsValidInfoHash infoHash = true ↔
      ∃ s, infoHash = some s ∧ (s.length = 40 ∨ s.length = 64) ∧
        ∀ c ∈ s.data, c ∈ hexDigits) ∧
    LTIsValidInfoHash none = false ∧
    LTIsValidInfoHash (some "g1a2b3c4d5e6f7a8b9c0d1e2f3a4b5c6d7e8f9a0") = false := by
  refine ⟨?_, rfl, by decide⟩
  cases infoHash with
  | none => simp [LTIsValidInfoHash]
  | some s =>
    simp only [LTIsValidInfoHash, strlen, Option.some.injEq, exists_eq_left']
    by_cases h : s.length ≠ 40 ∧ s.length ≠ 64
    · rw [if_pos h]
      constructor
      · intro hf; exact Bool.noConfusion hf
      · rintro ⟨h1 | h1, _⟩
        · exact absurd h1 h.1
        · exact absurd h1 h.2
    · rw [if_neg h, infoHashLoop_iff]
      constructor
      · intro hall
        refine ⟨?_, hall⟩
        by_contra hne
        exact h ⟨fun a => hne (Or.inl a), fun a => hne (Or.inr a)⟩
      · exact fun hh => hh.2

/-! ## Magnet links -/

/-- C4: `LTCreateMagnetUri` returns the prefix `magnet:?xt=urn:btih:`, then
the info-hash unchanged, then `&dn=` and the name unchanged when the name is
non-null and non-empty, and nothing more when the name is null or empty. -/
theorem LTCreateMagnetUri_spec (h : String) (n : Option String)
    (hh : NUL ∉ h.data) (hn : ∀ s, n = some s → NUL ∉ s.data) :
    LTCreateMagnetUri h n =
      "magnet:?xt=urn:btih:" ++ h ++
        (match n with
          | none => ""
          | some s => if s = "" then "" else "&dn=" ++ s) := by
  have hp : NUL ∉ ("magnet:?xt=urn:btih:" ++ h).data := by
    simp only [String.data_append, List.mem_append, not_or]
    exact ⟨by decide, hh⟩
  cases n with
  | none =>
    simp only [LTCreateMagnetUri]
    rw [copyString_eq_self _ hp]
    simp
  | some s =>
    have hs := hn s rfl
    by_cases he : s = ""
    · subst he
      simp only [LTCreateMagnetUri, strlen]
      rw [if_neg (by decide), copyString_eq_self _ hp]
      simp
    · have hl : strlen s > 0 := by
        simp only [strlen, String.length]
        rcases s with ⟨l⟩
        cases l with
        | nil => exact absurd rfl he
        | cons a l => simp
      simp only [LTCreateMagnetUri]
      rw [if_pos hl, if_neg he, copyString_eq_self]
      · simp [String.append_assoc]
      · simp only [String.data_append, List.mem_append, not_or]
        exact ⟨⟨⟨by decide, hh⟩, by decide⟩, hs⟩

theorem LTCreateMagnetUri_spec_witness :
    NUL ∉ "0123abcd".data ∧
    LTCreateMagnetUri "0123abcd" (some "a b") =
      "magnet:?xt=urn:btih:" ++ "0123abcd" ++
        (match (some "a b" : Option String) with
          | none => ""
          | some s => if s = "" then "" else "&dn=" ++ s) :=
  ⟨by decide, LTCreateMagnetUri_spec "0123abcd" (some "a b") (by decide)
    (fun s hs => by cases hs; decide)⟩

/-! ## The conversion to double and the size loop -/

theorem bitLength_le (fuel : Nat) : ∀ a n : Nat, a < 2 ^ n → bitLength fuel a ≤ n := by
  induction fuel with
  | zero => intro a n _; simp [bitLength]
  | succ fuel ih =>
    intro a n h
    by_cases ha : a = 0
    · simp [bitLength, ha]
    · cases n with
      | zero => simp at h; exact absurd h ha
      | succ m =>
        have h2 : a / 2 < 2 ^ m := by
          rw [pow_succ] at h; omega
        have := ih (a / 2) m h2
        simp only [bitLength, ha, if_false]
        omega

theorem bitLength_le_fuel (fuel a : Nat) : bitLength fuel a ≤ fuel := by
  induction fuel generalizing a with
  | zero => simp [bitLength]
  | succ fuel ih =>
    by_cases ha : a = 0
    · simp [bitLength, ha]
    · have := ih (a / 2)
      simp only [bitLength, ha, if_false]
      omega

theorem int64ToDouble_exact (b : Int) (h0 : 0 ≤ b) (h : b < 2 ^ 53) :
    int64ToDouble b = ⟨b, 0⟩ := by
  have ha : b.natAbs < 2 ^ 53 := by omega
  have he : bitLength 64 b.natAbs - 53 = 0 := by
    have := bitLength_le 64 _ _ ha
    omega
  simp only [int64ToDouble, he, pow_zero, Nat.div_one, Nat.mod_one, Nat.mul_one]
  rw [if_neg (by omega)]
  rw [Int.sign_mul_natAbs]

theorem int64ToDouble_large (b : Int) (h : 2 ^ 53 ≤ b) :
    2 ^ 52 ≤ (int64ToDouble b).num := by
  have ha : 2 ^ 53 ≤ b.natAbs := by omega
  have hs : Int.sign b = 1 := Int.sign_eq_one_of_pos (by omega)
  have he : bitLength 64 b.natAbs - 53 ≤ 11 := by
    have := bitLength_le_fuel 64 b.natAbs
    omega
  simp only [int64ToDouble, hs, one_mul]
  generalize bitLength 64 b.natAbs - 53 = e at he
  generalize b.natAbs = a at ha
  have hP : 2 ^ e ≤ 2 ^ 11 := Nat.pow_le_pow_right (by decide) he
  have hpos : 0 < 2 ^ e := Nat.two_pow_pos e
  generalize 2 ^ e = P at hP hpos
  have hdm := Nat.div_add_mod a P
  have hr : a % P < P := Nat.mod_lt _ hpos
  have hq : a / P * P ≤ (if P < 2 * (a % P) ∨ 2 * (a % P) = P ∧ a / P % 2 = 1 then a / P + 1
      else a / P) * P := by
    apply Nat.mul_le_mul_right
    split_ifs <;> omega
  have hc : P * (a / P) = a / P * P := Nat.mul_comm _ _
  have h52 : (2:Nat) ^ 52 = 4503599627370496 := by norm_num
  have h53 : (2:Nat) ^ 53 = 9007199254740992 := by norm_num
  have h11 : (2:Nat) ^ 11 = 2048 := by norm_num
  rw [h53] at ha
  rw [h11] at hP
  have : (2:Nat) ^ 52 ≤ (if P < 2 * (a % P) ∨ 2 * (a % P) = P ∧ a / P % 2 = 1 then a / P + 1
      else a / P) * P := by
    rw [h52]
    omega
  exact_mod_cast this

theorem int64ToDouble_neg (b : Int) (h : b < 0) : (int64ToDouble b).num ≤ 0 := by
  have hs : Int.sign b = -1 := Int.sign_eq_neg_one_of_neg h
  simp only [int64ToDouble, hs]
  have : (0:Int) ≤ ((((if 2 ^ (bitLength 64 b.natAbs - 53) <
      2 * (b.natAbs % 2 ^ (bitLength 64 b.natAbs - 53)) ∨
      2 * (b.natAbs % 2 ^ (bitLength 64 b.natAbs - 53)) = 2 ^ (bitLength 64 b.natAbs - 53) ∧
      b.natAbs / 2 ^ (bitLength 64 b.natAbs - 53) % 2 = 1
      then b.natAbs / 2 ^ (bitLength 64 b.natAbs - 53) + 1
      else b.natAbs / 2 ^ (bitLength 64 b.natAbs - 53)) *
      2 ^ (bitLength 64 b.natAbs - 53) : Nat)) : Int) := Int.ofNat_nonneg _
  omega

theorem sizeLoop_result (d : Int) (k : Nat) (hk : k ≤ 5)
    (hlo : k = 0 ∨ 1024 ^ k ≤ d) (hhi : k < 5 → d < 1024 ^ (k + 1)) :
    sizeLoop 5 ⟨d, 0⟩ 0 = (⟨d, 10 * k⟩, k) := by
  interval_cases k <;>
    simp [sizeLoop, Dbl.ge1024, Dbl.div1024] at hlo hhi ⊢ <;>
    split_ifs <;> first | rfl | omega

theorem sizeLoop_exit (fuel : Nat) : ∀ (size : Dbl) (i : Nat), 5 ≤ fuel + i →
    ¬ ((sizeLoop fuel size i).1.ge1024 = true ∧ (sizeLoop fuel size i).2 < 5) := by
  induction fuel with
  | zero =>
    intro size i h hc
    simp only [sizeLoop] at hc
    omega
  | succ fuel ih =>
    intro size i h
    by_cases hc : size.ge1024 = true ∧ i < 5
    · simp only [sizeLoop, hc, and_self, if_true]
      exact ih _ _ (by omega)
    · rw [sizeLoop, if_neg hc]
      exact hc

theorem sizeLoop_fuel (n : Nat) : ∀ (fuel : Nat) (size : Dbl) (i : Nat), 5 ≤ fuel + i →
    sizeLoop (fuel + n) size i = sizeLoop fuel size i := by
  intro fuel
  induction fuel with
  | zero =>
    intro size i h
    cases n with
    | zero => rfl
    | succ n =>
      have : ¬ (size.ge1024 = true ∧ i < 5) := fun hc => by omega
      simp [sizeLoop, this]
  | succ fuel ih =>
    intro size i h
    have e : fuel + 1 + n = (fuel + n) + 1 := by omega
    rw [e]
    by_cases hc : size.ge1024 = true ∧ i < 5
    · simp only [sizeLoop, hc, and_self, if_true]
      exact ih _ _ (by omega)
    · rw [sizeLoop, if_neg hc, sizeLoop, if_neg hc]

theorem bitLength_exact (fuel : Nat) : ∀ a : Nat, a ≠ 0 → a < 2 ^ fuel →
    2 ^ (bitLength fuel a - 1) ≤ a ∧ a < 2 ^ bitLength fuel a := by
  induction fuel with
  | zero => intro a ha h; simp at h; exact absurd h ha
  | succ fuel ih =>
    intro a ha h
    simp only [bitLength, ha, if_false, Nat.add_sub_cancel]
    by_cases h2 : a / 2 = 0
    · have h1 : a = 1 := by omega
      subst h1
      cases fuel <;> simp [bitLength]
    · have hlt : a / 2 < 2 ^ fuel := by rw [pow_succ] at h; omega
      obtain ⟨l, u⟩ := ih (a / 2) h2 hlt
      have hpos : 1 ≤ bitLength fuel (a / 2) := by
        cases fuel with
        | zero => simp at hlt; exact absurd hlt h2
        | succ f => simp [bitLength, h2]
      constructor
      · have e : bitLength fuel (a / 2) = (bitLength fuel (a / 2) - 1) + 1 := by omega
        rw [e, pow_succ]; omega
      · rw [pow_succ]; omega

theorem halfEven_spec (a P : Nat) (hP : 0 < P) :
    2 * (halfEven a P * P) ≤ 2 * a + P ∧
    2 * a ≤ 2 * (halfEven a P * P) + P ∧
    ((2 * (halfEven a P * P) = 2 * a + P ∨ 2 * a = 2 * (halfEven a P * P) + P) →
      halfEven a P % 2 = 0) := by
  have hdm := Nat.div_add_mod a P
  have hr : a % P < P := Nat.mod_lt _ hP
  have hc : P * (a / P) = a / P * P := Nat.mul_comm _ _
  unfold halfEven
  split_ifs with hcond
  · rw [Nat.add_mul, Nat.one_mul]
    refine ⟨by omega, by omega, ?_⟩
    intro ht
    omega
  · refine ⟨by omega, by omega, ?_⟩
    intro ht
    omega

theorem int64ToDouble_num (b : Int) (hpos : 0 < b) :
    (int64ToDouble b).num =
      ((halfEven b.natAbs (2 ^ (bitLength 64 b.natAbs - 53)) *
        2 ^ (bitLength 64 b.natAbs - 53) : Nat) : Int) := by
  have hs : Int.sign b = 1 := Int.sign_eq_one_of_pos hpos
  simp only [int64ToDouble, hs, one_mul, halfEven]

theorem int64ToDouble_nearest (b : Int) (h0 : 0 ≤ b) (h64 : b < 2 ^ 64) :
    NearestDouble b (int64ToDouble b).num := by
  by_cases hz : b = 0
  · subst hz
    refine ⟨0, 0, by decide, Or.inl rfl, by decide, by decide, by decide, ?_⟩
    intro h
    rfl
  · have hpos : 0 < b := by omega
    have hab : (b.natAbs : Int) = b := Int.natAbs_of_nonneg h0
    have ha0 : b.natAbs ≠ 0 := by omega
    have ha64 : b.natAbs < 2 ^ 64 := by
      have : ((b.natAbs : Nat) : Int) < ((2 ^ 64 : Nat) : Int) := by
        rw [hab]; exact_mod_cast h64
      exact_mod_cast this
    obtain ⟨hlo, hhi⟩ := bitLength_exact 64 b.natAbs ha0 ha64
    have hP : 0 < 2 ^ (bitLength 64 b.natAbs - 53) := Nat.two_pow_pos _
    obtain ⟨r1, r2, r3⟩ := halfEven_spec b.natAbs _ hP
    have hnum := int64ToDouble_num b hpos
    refine ⟨bitLength 64 b.natAbs - 53,
      halfEven b.natAbs (2 ^ (bitLength 64 b.natAbs - 53)), ?_, ?_, ?_, ?_, ?_, ?_⟩
    · rw [hnum]; push_cast; rfl
    · by_cases he : bitLength 64 b.natAbs - 53 = 0
      · exact Or.inl he
      · right
        have e1 : 52 + (bitLength 64 b.natAbs - 53) = bitLength 64 b.natAbs - 1 := by omega
        rw [e1, ← hab]
        exact_mod_cast hlo
    · have hle : bitLength 64 b.natAbs ≤ 53 + (bitLength 64 b.natAbs - 53) := by omega
      have : b.natAbs < 2 ^ (53 + (bitLength 64 b.natAbs - 53)) :=
        lt_of_lt_of_le hhi (Nat.pow_le_pow_right (by decide) hle)
      rw [← hab]
      exact_mod_cast this
    · rw [hnum, ← hab]
      exact_mod_cast r1
    · rw [hnum, ← hab]
      exact_mod_cast r2
    · rw [hnum]
      intro ht
      apply r3
      rcases ht with ht | ht
      · left
        rw [← hab] at ht
        exact_mod_cast ht
      · right
        rw [← hab] at ht
        exact_mod_cast ht

theorem nearestDouble_unique (b d d' : Int) (h : NearestDouble b d)
    (h' : NearestDouble b d') : d = d' := by
  obtain ⟨e, m, hd, hb1, hb2, hu, hl, ht⟩ := h
  obtain ⟨e', m', hd', hb1', hb2', hu', hl', ht'⟩ := h'
  have hee : e = e' := by
    rcases Nat.lt_trichotomy e e' with hlt | heq | hgt
    · exfalso
      have h1 : (2:Int) ^ (53 + e) ≤ 2 ^ (52 + e') :=
        pow_le_pow_right₀ (by norm_num) (by omega)
      rcases hb1' with h0 | h2
      · omega
      · omega
    · exact heq
    · exfalso
      have h1 : (2:Int) ^ (53 + e') ≤ 2 ^ (52 + e) :=
        pow_le_pow_right₀ (by norm_num) (by omega)
      rcases hb1 with h0 | h2
      · omega
      · omega
  subst hee
  have hPpos : (0:Int) < 2 ^ e := by positivity
  generalize (2:Int) ^ e = P at hd hd' hu hl ht hu' hl' ht' hPpos
  have hm1 : (m : Int) ≤ m' + 1 := by
    have : (m : Int) * P ≤ ((m' : Int) + 1) * P := by
      rw [add_mul, one_mul, ← hd, ← hd']; omega
    exact le_of_mul_le_mul_right this hPpos
  have hm2 : (m' : Int) ≤ m + 1 := by
    have : (m' : Int) * P ≤ ((m : Int) + 1) * P := by
      rw [add_mul, one_mul, ← hd, ← hd']; omega
    exact le_of_mul_le_mul_right this hPpos
  rcases Nat.lt_trichotomy m m' with hlt | heq | hgt
  · exfalso
    have hm : m' = m + 1 := by omega
    subst hm
    have hdd : d' = d + P := by rw [hd', hd]; push_cast; ring
    have t1 := ht (Or.inr (by omega))
    have t2 := ht' (Or.inl (by omega))
    omega
  · subst heq; rw [hd, hd']
  · exfalso
    have hm : m = m' + 1 := by omega
    subst hm
    have hdd : d = d' + P := by rw [hd', hd]; push_cast; ring
    have t1 := ht (Or.inl (by omega))
    have t2 := ht' (Or.inr (by omega))
    omega

/-! ## Human-readable sizes -/

theorem int64ToDouble_eta (b : Int) : int64ToDouble b = ⟨(int64ToDouble b).num, 0⟩ := rfl

theorem render_eq (size : Dbl) (k : Nat) :
    copyString (size.fixed2 ++ " " ++ suffixes.getD k "") =
      size.fixed2 ++ " " ++ suffixes.getD k "" := by
  apply copyString_eq_self
  simp only [String.data_append, List.mem_append, not_or]
  exact ⟨⟨fixed2_noNUL size, by decide⟩, suffix_noNUL k⟩

theorem hundredths_nearest (x : Dbl) :
    2 * (x.num.natAbs * 100 - x.hundredths * 2 ^ x.shift) ≤ 2 ^ x.shift ∧
    2 * (x.hundredths * 2 ^ x.shift - x.num.natAbs * 100) ≤ 2 ^ x.shift := by
  have hpos : 0 < 2 ^ x.shift := Nat.two_pow_pos _
  simp only [Dbl.hundredths]
  generalize 2 ^ x.shift = d at hpos
  generalize x.num.natAbs * 100 = a
  have hdm := Nat.div_add_mod a d
  have hr : a % d < d := Nat.mod_lt _ hpos
  have hc : d * (a / d) = a / d * d := Nat.mul_comm _ _
  split_ifs with hcond
  · rw [Nat.add_mul, Nat.one_mul]; omega
  · omega

theorem index_exists (b : Int) :
    ∃ k : Nat, k ≤ 5 ∧ (k = 0 ∨ (1024:Int) ^ k ≤ b) ∧ (k < 5 → b < (1024:Int) ^ (k + 1)) := by
  by_cases h1 : b < 1024
  · exact ⟨0, by decide, Or.inl rfl, fun _ => by norm_num; exact h1⟩
  by_cases h2 : b < 1024 ^ 2
  · exact ⟨1, by decide, Or.inr (by norm_num; omega), fun _ => by norm_num at h2 ⊢; exact h2⟩
  by_cases h3 : b < 1024 ^ 3
  · exact ⟨2, by decide, Or.inr (by norm_num at h2 ⊢; omega), fun _ => by norm_num at h3 ⊢; exact h3⟩
  by_cases h4 : b < 1024 ^ 4
  · exact ⟨3, by decide, Or.inr (by norm_num at h3 ⊢; omega), fun _ => by norm_num at h4 ⊢; exact h4⟩
  by_cases h5 : b < 1024 ^ 5
  · exact ⟨4, by decide, Or.inr (by norm_num at h4 ⊢; omega), fun _ => by norm_num at h5 ⊢; exact h5⟩
  · exact ⟨5, by decide, Or.inr (by norm_num at h5 ⊢; omega), fun h => absurd h (by decide)⟩

/-- C2 (amended): for a non-negative `int64_t` byte count `b` the result is
`<v> <suffix>` with `k` the largest index in `0..5` such that `1024 ^ k ≤ b`
(`k = 0` below 1024), the `k`-th suffix, and `v` the value `d / 1024 ^ k`
printed with two decimals, rounded to the nearest hundredth, where `d` is
the `double` nearest to `b`: the one multiple of the spacing of the doubles
around `b` that lies within half a spacing of `b`, the even one on a tie;
`d = b` whenever `b < 2 ^ 53`.  The four examples of the specification
hold. -/
theorem LTHumanReadableSize_spec (b : Int) (h0 : 0 ≤ b) (h63 : b < 2 ^ 63) :
    (∃ k : Nat, k ≤ 5 ∧ (k = 0 ∨ (1024:Int) ^ k ≤ b) ∧
      (∀ j : Nat, j ≤ 5 → (1024:Int) ^ j ≤ b → j ≤ k) ∧
      LTHumanReadableSize b =
        (Dbl.mk (int64ToDouble b).num (10 * k)).fixed2 ++ " " ++ suffixes.getD k "" ∧
      2 * ((int64ToDouble b).num.natAbs * 100 -
          (Dbl.mk (int64ToDouble b).num (10 * k)).hundredths * 1024 ^ k) ≤ 1024 ^ k ∧
      2 * ((Dbl.mk (int64ToDouble b).num (10 * k)).hundredths * 1024 ^ k -
          (int64ToDouble b).num.natAbs * 100) ≤ 1024 ^ k) ∧
    NearestDouble b (int64ToDouble b).num ∧
    (∀ d, NearestDouble b d → d = (int64ToDouble b).num) ∧
    (b < 2 ^ 53 → (int64ToDouble b).num = b) ∧
    LTHumanReadableSize 0 = "0.00 B" ∧ LTHumanReadableSize 1024 = "1.00 KB" ∧
    LTHumanReadableSize 1536 = "1.50 KB" ∧ LTHumanReadableSize 1073741824 = "1.00 GB" := by
  have hex : b < 2 ^ 53 → (int64ToDouble b).num = b := fun h => by
    rw [int64ToDouble_exact b h0 h]
  have hnear : NearestDouble b (int64ToDouble b).num :=
    int64ToDouble_nearest b h0 (by omega)
  refine ⟨?_, hnear, fun d hd => nearestDouble_unique b d _ hd hnear, hex,
    by decide, by decide, by decide, by decide⟩
  obtain ⟨k, hk, hlo, hhi⟩ := index_exists b
  have hmax : ∀ j : Nat, j ≤ 5 → (1024:Int) ^ j ≤ b → j ≤ k := by
    intro j hj hjb
    by_contra hlt
    have hk5 : k < 5 := by omega
    have hb := hhi hk5
    have hpow : (1024:Int) ^ (k + 1) ≤ 1024 ^ j :=
      pow_le_pow_right₀ (by norm_num) (by omega)
    omega
  have hd : (k = 0 ∨ (1024:Int) ^ k ≤ (int64ToDouble b).num) ∧
      (k < 5 → (int64ToDouble b).num < (1024:Int) ^ (k + 1)) := by
    by_cases hb : b < 2 ^ 53
    · rw [hex hb]; exact ⟨hlo, hhi⟩
    · have hbig := int64ToDouble_large b (by omega)
      have hk5 : k = 5 := by
        by_contra hne
        have hb2 := hhi (by omega)
        have : (1024:Int) ^ (k + 1) ≤ 2 ^ 53 := by
          have hk4 : k ≤ 4 := by omega
          interval_cases k <;> norm_num
        omega
      subst hk5
      refine ⟨Or.inr ?_, fun h => absurd h (by decide)⟩
      have : (1024:Int) ^ 5 ≤ 2 ^ 52 := by norm_num
      omega
  have hloop := sizeLoop_result (int64ToDouble b).num k hk hd.1 hd.2
  have hn := hundredths_nearest (Dbl.mk (int64ToDouble b).num (10 * k))
  have hpw : (2:Nat) ^ (10 * k) = 1024 ^ k := by rw [pow_mul]; norm_num
  simp only [hpw] at hn
  refine ⟨k, hk, hlo, hmax, ?_, hn.1, hn.2⟩
  simp only [LTHumanReadableSize]
  rw [int64ToDouble_eta b, hloop]
  exact render_eq _ _

theorem LTHumanReadableSize_spec_witness :
    (0:Int) ≤ 1536 ∧ (1536:Int) < 2 ^ 63 ∧
    ((∃ k : Nat, k ≤ 5 ∧ (k = 0 ∨ (1024:Int) ^ k ≤ 1536) ∧
      (∀ j : Nat, j ≤ 5 → (1024:Int) ^ j ≤ 1536 → j ≤ k) ∧
      LTHumanReadableSize 1536 =
        (Dbl.mk (int64ToDouble 1536).num (10 * k)).fixed2 ++ " " ++ suffixes.getD k "" ∧
      2 * ((int64ToDouble 1536).num.natAbs * 100 -
          (Dbl.mk (int64ToDouble 1536).num (10 * k)).hundredths * 1024 ^ k) ≤ 1024 ^ k ∧
      2 * ((Dbl.mk (int64ToDouble 1536).num (10 * k)).hundredths * 1024 ^ k -
          (int64ToDouble 1536).num.natAbs * 100) ≤ 1024 ^ k) ∧
    NearestDouble 1536 (int64ToDouble 1536).num ∧
    (∀ d, NearestDouble 1536 d → d = (int64ToDouble 1536).num) ∧
    ((1536:Int) < 2 ^ 53 → (int64ToDouble 1536).num = 1536) ∧
    LTHumanReadableSize 0 = "0.00 B" ∧ LTHumanReadableSize 1024 = "1.00 KB" ∧
    LTHumanReadableSize 1536 = "1.50 KB" ∧ LTHumanReadableSize 1073741824 = "1.00 GB") :=
  ⟨by decide, by decide, LTHumanReadableSize_spec 1536 (by decide) (by decide)⟩

/-- C2 (as stated, refuted): at `b = 9024087753343631` (above `2 ^ 53`) the
conversion to `double` rounds `b` up to `9024087753343632`, and the result is
`8.02 PB`, although `b / 1024 ^ 5` is closer to `8.01` than to `8.02`. -/
theorem LTHumanReadableSize_exact_counterexample :
    LTHumanReadableSize 9024087753343631 = "8.02 PB" ∧
    (1024:Int) ^ 5 ≤ 9024087753343631 ∧
    (Dbl.mk 9024087753343631 (10 * 5)).fixed2 = "8.01" ∧
    LTHumanReadableSize 9024087753343631 ≠
      (Dbl.mk 9024087753343631 (10 * 5)).fixed2 ++ " " ++ suffixes.getD 5 "" ∧
    (1024:Int) ^ 5 < 2 * (802 * 1024 ^ 5 - 100 * 9024087753343631) := by
  decide

/-- C10: the suffix is chosen before the value is rounded, so every byte
count from 1048571 to 1048575 prints as `1024.00 KB` while 1048576 prints as
`1.00 MB`; for a negative byte count the loop body never runs (whatever the
iteration bound) and the suffix is `B`. -/
theorem LTHumanReadableSize_rounding (b : Int) :
    (1048571 ≤ b → b ≤ 1048575 → LTHumanReadableSize b = "1024.00 KB") ∧
    LTHumanReadableSize 1048576 = "1.00 MB" ∧
    (-2 ^ 63 ≤ b → b < 0 →
      (∀ fuel, sizeLoop fuel (int64ToDouble b) 0 = (int64ToDouble b, 0)) ∧
      LTHumanReadableSize b = (int64ToDouble b).fixed2 ++ " " ++ "B") := by
  refine ⟨?_, by decide, ?_⟩
  · intro h1 h2
    interval_cases b <;> decide
  · intro _ hneg
    have hle := int64ToDouble_neg b hneg
    have hge : (int64ToDouble b).ge1024 = false := by
      simp only [Dbl.ge1024, decide_eq_false_iff_not, not_le]
      have : (0:Int) < 1024 * 2 ^ (int64ToDouble b).shift := by positivity
      omega
    have hloop : ∀ fuel, sizeLoop fuel (int64ToDouble b) 0 = (int64ToDouble b, 0) := by
      intro fuel
      cases fuel with
      | zero => rfl
      | succ f => simp [sizeLoop, hge]
    refine ⟨hloop, ?_⟩
    simp only [LTHumanReadableSize, hloop 5]
    exact render_eq _ 0

theorem LTHumanReadableSize_rounding_witness :
    LTHumanReadableSize 1048573 = "1024.00 KB" ∧
    LTHumanReadableSize (-5) = (int64ToDouble (-5)).fixed2 ++ " " ++ "B" :=
  ⟨(LTHumanReadableSize_rounding 1048573).1 (by decide) (by decide),
   ((LTHumanReadableSize_rounding (-5)).2.2 (by decide) (by decide)).2⟩

/-! ## Status of a torrent -/

theorem validHandle_of_invalid (t : Option LTTorrent) (h : InvalidTorrent t) :
    validHandle t = none := by
  rcases h with rfl | ⟨torrent, rfl, hnone | ⟨p, hp, hv⟩⟩
  · rfl
  · simp [validHandle, hnone]
  · simp [validHandle, hp, hv]

theorem validHandle_of_valid (t : Option LTTorrent) (h : lt.torrent_handle)
    (hv : ValidTorrent t h) : validHandle t = some h := by
  obtain ⟨torrent, p, rfl, hp, rfl, hvalid⟩ := hv
  simp [validHandle, hp, hvalid]

/-- C3 (as stated, refuted): the status returned for the null handle equals
the status returned for a valid handle whose torrent is checking files with
zero progress, rates, totals and peers, not paused and not finished. -/
theorem LTTorrentGetStatus_invalid_counterexample :
    InvalidTorrent none ∧
    ValidTorrent (some idleTorrent) { id := 0, is_valid := true, status := idleStatus } ∧
    LTTorrentIsValid none = false ∧ LTTorrentIsValid (some idleTorrent) = true ∧
    LTTorrentGetStatus none = LTTorrentGetStatus (some idleTorrent) :=
  ⟨Or.inl rfl, ⟨idleTorrent, _, rfl, rfl, rfl, rfl⟩, rfl, rfl, by decide⟩

/-- C3 (amended): for a torrent handle that is null, carries no engine
handle or carries one that is not valid, `LTTorrentGetStatus` returns the
zero-initialised status: state `LTStateCheckingFiles`, zero progress, rates,
totals, peers and seeds, not paused, not finished.  That value is also the
status of some valid handle, so it does not identify the failure. -/
theorem LTTorrentGetStatus_invalid (t : Option LTTorrent) (h : InvalidTorrent t) :
    LTTorrentGetStatus t =
      { state := LTStateCheckingFiles, progress := 0, downloadRate := 0, uploadRate := 0,
        totalDownload := 0, totalUpload := 0, numPeers := 0, numSeeds := 0,
        isPaused := false, isFinished := false } ∧
    ∃ t' h', ValidTorrent t' h' ∧ LTTorrentGetStatus t' = LTTorrentGetStatus t := by
  have hz : LTTorrentGetStatus t = LTTorrentStatus.zeroInit := by
    simp [LTTorrentGetStatus, validHandle_of_invalid t h]
  refine ⟨by rw [hz]; rfl, some idleTorrent, _, ⟨idleTorrent, _, rfl, rfl, rfl, rfl⟩, ?_⟩
  rw [hz]; decide

theorem LTTorrentGetStatus_invalid_witness :
    InvalidTorrent (some ⟨none, 1⟩) ∧
    LTTorrentGetStatus (some ⟨none, 1⟩) =
      { state := LTStateCheckingFiles, progress := 0, downloadRate := 0, uploadRate := 0,
        totalDownload := 0, totalUpload := 0, numPeers := 0, numSeeds := 0,
        isPaused := false, isFinished := false } :=
  have hi : InvalidTorrent (some ⟨none, 1⟩) := Or.inr ⟨_, rfl, Or.inl rfl⟩
  ⟨hi, (LTTorrentGetStatus_invalid _ hi).1⟩

theorem paused_iff_testBit (flags : Nat) :
    flags &&& lt.paused ≠ 0 ↔ flags.testBit 4 = true := by
  constructor
  · intro h
    by_contra hb
    apply h
    apply Nat.eq_of_testBit_eq
    intro i
    simp only [Nat.testBit_and, lt.paused, Nat.testBit_two_pow, Nat.zero_testBit]
    by_cases hi : 4 = i
    · subst hi; simp [hb]
    · simp [hi]
  · intro h h0
    have : (flags &&& lt.paused).testBit 4 = true := by
      rw [Nat.testBit_and, h, lt.paused, Nat.testBit_two_pow_self]; rfl
    rw [h0] at this
    simp at this

/-- C8: for a valid handle the reported state is one of the six bridge
states; each of the six named engine states maps to its namesake, the map is
injective on them, and every other engine state maps to `Downloading`; the
remaining fields are the engine's values, and `isPaused` holds exactly when
the engine's paused flag (bit 4) is set. -/
theorem LTTorrentGetStatus_valid (t : Option LTTorrent) (h : lt.torrent_handle)
    (hv : ValidTorrent t h) :
    (LTTorrentGetStatus t).state ∈ bridgeStates ∧
    (h.status.state = lt.checking_files →
      (LTTorrentGetStatus t).state = LTStateCheckingFiles) ∧
    (h.status.state = lt.downloading_metadata →
      (LTTorrentGetStatus t).state = LTStateDownloadingMetadata) ∧
    (h.status.state = lt.downloading →
      (LTTorrentGetStatus t).state = LTStateDownloading) ∧
    (h.status.state = lt.finished → (LTTorrentGetStatus t).state = LTStateFinished) ∧
    (h.status.state = lt.seeding → (LTTorrentGetStatus t).state = LTStateSeeding) ∧
    (h.status.state = lt.checking_resume_data →
      (LTTorrentGetStatus t).state = LTStateCheckingResumeData) ∧
    (h.status.state ∉ namedEngineStates →
      (LTTorrentGetStatus t).state = LTStateDownloading) ∧
    (∀ a ∈ namedEngineStates, ∀ b ∈ namedEngineStates, mapState a = mapState b → a = b) ∧
    (LTTorrentGetStatus t).progress = h.status.progress ∧
    (LTTorrentGetStatus t).downloadRate = h.status.download_rate ∧
    (LTTorrentGetStatus t).uploadRate = h.status.upload_rate ∧
    (LTTorrentGetStatus t).totalDownload = h.status.total_download ∧
    (LTTorrentGetStatus t).totalUpload = h.status.total_upload ∧
    (LTTorrentGetStatus t).numPeers = h.status.num_peers ∧
    (LTTorrentGetStatus t).numSeeds = h.status.num_seeds ∧
    (LTTorrentGetStatus t).isFinished = h.status.is_finished ∧
    ((LTTorrentGetStatus t).isPaused = true ↔ h.status.flags.testBit 4 = true) := by
  have hs : LTTorrentGetStatus t =
      { state := mapState h.status.state, progress := h.status.progress,
        downloadRate := h.status.download_rate, uploadRate := h.status.upload_rate,
        totalDownload := h.status.total_download, totalUpload := h.status.total_upload,
        numPeers := h.status.num_peers, numSeeds := h.status.num_seeds,
        isPaused := decide (h.status.flags &&& lt.paused ≠ 0),
        isFinished := h.status.is_finished } := by
    simp [LTTorrentGetStatus, validHandle_of_valid t h hv]
  rw [hs]
  refine ⟨?_, ?_, ?_, ?_, ?_, ?_, ?_, ?_, by decide, rfl, rfl, rfl, rfl, rfl, rfl, rfl, rfl, ?_⟩
  · simp only [mapState]
    split_ifs <;> decide
  · intro e; simp only [e]; decide
  · intro e; simp only [e]; decide
  · intro e; simp only [e]; decide
  · intro e; simp only [e]; decide
  · intro e; simp only [e]; decide
  · intro e; simp only [e]; decide
  · intro hn
    simp only [namedEngineStates, List.mem_cons, List.mem_singleton, List.not_mem_nil,
      or_false, not_or] at hn
    obtain ⟨h1, h2, h3, h4, h5, h6⟩ := hn
    simp [mapState, h1, h2, h3, h4, h5, h6]
  · simp only [decide_eq_true_eq]
    exact paused_iff_testBit _

theorem LTTorrentGetStatus_valid_witness :
    ValidTorrent (some idleTorrent) { id := 0, is_valid := true, status := idleStatus } ∧
    (LTTorrentGetStatus (some idleTorrent)).state ∈ bridgeStates ∧
    (LTTorrentGetStatus (some idleTorrent)).state = LTStateCheckingFiles :=
  have hv : ValidTorrent (some idleTorrent)
      { id := 0, is_valid := true, status := idleStatus } := ⟨idleTorrent, _, rfl, rfl, rfl, rfl⟩
  have ht := LTTorrentGetStatus_valid (some idleTorrent) _ hv
  ⟨hv, ht.1, ht.2.1 rfl⟩

/-! ## Torrent operations and adding torrents -/

/-- C9: on a torrent handle that is null, without engine handle or not valid
`LTTorrentIsValid` is false and pause, resume and the two limit setters leave
the engine as it was, issuing no call; on a valid handle `LTTorrentIsValid`
is true and each of the four appends exactly its own engine call, with the
given limit, and changes nothing else. -/
theorem torrent_operations_guarded (t : Option LTTorrent) (limit : Int)
    (engine : lt.session) :
    (InvalidTorrent t →
      LTTorrentIsValid t = false ∧
      LTTorrentPause t engine = engine ∧
      LTTorrentResume t engine = engine ∧
      LTTorrentSetDownloadLimit t limit engine = engine ∧
      LTTorrentSetUploadLimit t limit engine = engine) ∧
    (∀ h, ValidTorrent t h →
      LTTorrentIsValid t = true ∧
      LTTorrentPause t engine =
        { engine with calls := engine.calls ++ [lt.EngineCall.pause h] } ∧
      LTTorrentResume t engine =
        { engine with calls := engine.calls ++ [lt.EngineCall.resume h] } ∧
      LTTorrentSetDownloadLimit t limit engine =
        { engine with calls := engine.calls ++ [lt.EngineCall.set_download_limit h limit] } ∧
      LTTorrentSetUploadLimit t limit engine =
        { engine with calls := engine.calls ++ [lt.EngineCall.set_upload_limit h limit] }) := by
  constructor
  · intro hi
    have hn := validHandle_of_invalid t hi
    refine ⟨?_, by simp [LTTorrentPause, hn], by simp [LTTorrentResume, hn],
      by simp [LTTorrentSetDownloadLimit, hn], by simp [LTTorrentSetUploadLimit, hn]⟩
    rcases hi with rfl | ⟨torrent, rfl, hnone | ⟨p, hp, hv⟩⟩
    · rfl
    · simp [LTTorrentIsValid, hnone]
    · simp [LTTorrentIsValid, hp, hv]
  · intro h hv
    have hs := validHandle_of_valid t h hv
    refine ⟨?_, by simp [LTTorrentPause, hs, lt.session.call],
      by simp [LTTorrentResume, hs, lt.session.call],
      by simp [LTTorrentSetDownloadLimit, hs, lt.session.call],
      by simp [LTTorrentSetUploadLimit, hs, lt.session.call]⟩
    obtain ⟨torrent, p, rfl, hp, rfl, hvalid⟩ := hv
    simp [LTTorrentIsValid, hp, hvalid]

theorem torrent_operations_guarded_witness :
    InvalidTorrent (some ⟨none, 1⟩) ∧
    LTTorrentSetDownloadLimit (some ⟨none, 1⟩) 100 ⟨[], []⟩ = ⟨[], []⟩ ∧
    ValidTorrent (some idleTorrent) { id := 0, is_valid := true, status := idleStatus } ∧
    LTTorrentSetDownloadLimit (some idleTorrent) 100 ⟨[], []⟩ =
      ⟨[lt.EngineCall.set_download_limit
          { id := 0, is_valid := true, status := idleStatus } 100], []⟩ :=
  have hi : InvalidTorrent (some ⟨none, 1⟩) := Or.inr ⟨_, rfl, Or.inl rfl⟩
  have hv : ValidTorrent (some idleTorrent)
      { id := 0, is_valid := true, status := idleStatus } := ⟨idleTorrent, _, rfl, rfl, rfl, rfl⟩
  ⟨hi, ((torrent_operations_guarded (some ⟨none, 1⟩) 100 ⟨[], []⟩).1 hi).2.2.2.1,
    hv, ((torrent_operations_guarded (some idleTorrent) 100 ⟨[], []⟩).2 _ hv).2.2.2.1⟩

theorem addToSession_fail (env : lt.Engine) (sh : Nat) (session : LTSession)
    (params : lt.add_torrent_params) (newAddr : Nat)
    (h : env.add_torrent session.session params = none) :
    (addToSession env sh session params newAddr).1 = none ∧
    (addToSession env sh session params newAddr).2.handles = session.handles := by
  simp [addToSession, h]

theorem addToSession_ok (env : lt.Engine) (sh : Nat) (session : LTSession)
    (params : lt.add_torrent_params) (newAddr : Nat) (handle : lt.torrent_handle)
    (h : env.add_torrent session.session params = some handle) :
    (addToSession env sh session params newAddr).1 = some ⟨some ⟨newAddr, handle⟩, sh⟩ ∧
    (addToSession env sh session params newAddr).2.handles =
      session.handles ++ [⟨newAddr, handle⟩] := by
  simp [addToSession, h]

/-- C5: both add functions return null and leave the owned handles as they
were when the torrent file or magnet link does not parse or when the engine
rejects the add; when the add succeeds the owned handles are the old ones
followed by exactly one new handle, and the returned torrent points to that
handle and to this session. -/
theorem add_is_atomic (env : lt.Engine) (sessionHandle : Nat) (session : LTSession)
    (source savePath : String) (newAddr : Nat) :
    (env.torrent_info source = none →
      (LTSessionAddTorrent env sessionHandle session source savePath newAddr).1 = none ∧
      (LTSessionAddTorrent env sessionHandle session source savePath newAddr).2 = session) ∧
    (∀ ti, env.torrent_info source = some ti →
      env.add_torrent session.session ⟨savePath, some ti, 0⟩ = none →
      (LTSessionAddTorrent env sessionHandle session source savePath newAddr).1 = none ∧
      (LTSessionAddTorrent env sessionHandle session source savePath newAddr).2.handles =
        session.handles) ∧
    (∀ ti handle, env.torrent_info source = some ti →
      env.add_torrent session.session ⟨savePath, some ti, 0⟩ = some handle →
      (LTSessionAddTorrent env sessionHandle session source savePath newAddr).1 =
        some ⟨some ⟨newAddr, handle⟩, sessionHandle⟩ ∧
      (LTSessionAddTorrent env sessionHandle session source savePath newAddr).2.handles =
        session.handles ++ [⟨newAddr, handle⟩]) ∧
    (env.parse_magnet_uri source = none →
      (LTSessionAddMagnetUri env sessionHandle session source savePath newAddr).1 = none ∧
      (LTSessionAddMagnetUri env sessionHandle session source savePath newAddr).2 = session) ∧
    (∀ params, env.parse_magnet_uri source = some params →
      env.add_torrent session.session { params with save_path := savePath } = none →
      (LTSessionAddMagnetUri env sessionHandle session source savePath newAddr).1 = none ∧
      (LTSessionAddMagnetUri env sessionHandle session source savePath newAddr).2.handles =
        session.handles) ∧
    (∀ params handle, env.parse_magnet_uri source = some params →
      env.add_torrent session.session { params with save_path := savePath } = some handle →
      (LTSessionAddMagnetUri env sessionHandle session source savePath newAddr).1 =
        some ⟨some ⟨newAddr, handle⟩, sessionHandle⟩ ∧
      (LTSessionAddMagnetUri env sessionHandle session source savePath newAddr).2.handles =
        session.handles ++ [⟨newAddr, handle⟩]) := by
  refine ⟨?_, ?_, ?_, ?_, ?_, ?_⟩
  · intro h; simp [LTSessionAddTorrent, h]
  · intro ti h hf
    simp only [LTSessionAddTorrent, h]
    exact addToSession_fail _ _ _ _ _ hf
  · intro ti handle h hs
    simp only [LTSessionAddTorrent, h]
    exact addToSession_ok _ _ _ _ _ _ hs
  · intro h; simp [LTSessionAddMagnetUri, h]
  · intro params h hf
    simp only [LTSessionAddMagnetUri, h]
    exact addToSession_fail _ _ _ _ _ hf
  · intro params handle h hs
    simp only [LTSessionAddMagnetUri, h]
    exact addToSession_ok _ _ _ _ _ _ hs

theorem add_is_atomic_witness :
    sampleEngine.torrent_info "missing.torrent" = none ∧
    (LTSessionAddTorrent sampleEngine 1 sampleSession "missing.torrent" "/dl" 2).1 = none ∧
    (LTSessionAddTorrent sampleEngine 1 sampleSession "a.torrent" "" 2).2.handles =
      sampleSession.handles ∧
    (LTSessionAddTorrent sampleEngine 1 sampleSession "a.torrent" "/dl" 2).2.handles =
      sampleSession.handles ++ [⟨2, { id := 0, is_valid := true, status := idleStatus }⟩] ∧
    (LTSessionAddMagnetUri sampleEngine 1 sampleSession "magnet:?xt=urn:btih:00" "/dl" 2).1 =
      some ⟨some ⟨2, { id := 0, is_valid := true, status := idleStatus }⟩, 1⟩ :=
  ⟨by decide,
   ((add_is_atomic sampleEngine 1 sampleSession "missing.torrent" "/dl" 2).1 (by decide)).1,
   ((add_is_atomic sampleEngine 1 sampleSession "a.torrent" "" 2).2.1 7
      (by decide) (by decide)).2,
   ((add_is_atomic sampleEngine 1 sampleSession "a.torrent" "/dl" 2).2.2.1 7 _
      (by decide) (by decide)).2,
   ((add_is_atomic sampleEngine 1 sampleSession "magnet:?xt=urn:btih:00" "/dl" 2).2.2.2.2.2
      ⟨"", none, 9⟩ _ (by decide) (by decide)).1⟩

/-! ## Removing torrents -/

theorem find_if_erase {α : Type} (p : α → Bool) (l : List α) :
    (if find_if p l ≠ l.length then erase l (find_if p l) else l) = l.eraseP p := by
  induction l with
  | nil => rfl
  | cons a as ih =>
    by_cases hp : p a = true
    · simp [find_if, erase, hp]
    · have hp' : p a = false := by simpa using hp
      simp only [find_if, hp', Bool.false_eq_true, if_false, List.length_cons, ne_eq,
        add_left_inj, erase, List.eraseP_cons_of_neg hp]
      by_cases he : find_if p as = as.length
      · rw [if_neg (not_not.2 he)] at ih
        rw [if_neg (not_not.2 he), ← ih]
      · rw [if_pos he] at ih
        rw [if_pos he, ih]

theorem eraseP_addr_eq_filter (a : Nat) (l : List HandlePtr)
    (hnd : (l.map HandlePtr.addr).Nodup) :
    l.eraseP (fun h => h.addr == a) = l.filter (fun h => h.addr != a) := by
  induction l with
  | nil => rfl
  | cons x xs ih =>
    simp only [List.map_cons, List.nodup_cons] at hnd
    by_cases hx : x.addr = a
    · subst hx
      have hall : ∀ y ∈ xs, (y.addr != x.addr) = true := by
        intro y hy
        have : y.addr ≠ x.addr := fun e => hnd.1 (e ▸ List.mem_map_of_mem _ hy)
        simpa using this
      simp [List.filter_eq_self.2 hall]
    · simp [List.eraseP_cons, hx, ih hnd.2]

theorem remove_handles (session : LTSession) (torrent : LTTorrent) (p : HandlePtr)
    (deleteFiles : Bool) (hp : torrent.handle = some p) :
    (LTSessionRemoveTorrent session (some torrent) deleteFiles).handles =
      session.handles.eraseP (fun h => h.addr == p.addr) := by
  simp only [LTSessionRemoveTorrent, hp]
  exact find_if_erase _ _

theorem remove_after_add (env : lt.Engine) (sh : Nat) (session : LTSession)
    (params : lt.add_torrent_params) (newAddr : Nat) (deleteFiles : Bool)
    (hfresh : newAddr ∉ session.addrs) :
    (LTSessionRemoveTorrent (addToSession env sh session params newAddr).2
      (addToSession env sh session params newAddr).1 deleteFiles).handles =
      session.handles := by
  cases hadd : env.add_torrent session.session params with
  | none =>
    have := addToSession_fail env sh session params newAddr hadd
    rw [this.1]
    simpa [LTSessionRemoveTorrent] using this.2
  | some handle =>
    have := addToSession_ok env sh session params newAddr handle hadd
    rw [this.1, remove_handles _ _ ⟨newAddr, handle⟩ _ rfl, this.2]
    rw [List.eraseP_append_right]
    · simp
    · intro b hb
      have : b.addr ≠ newAddr := fun e => hfresh (e ▸ List.mem_map_of_mem _ hb)
      simpa using this

/-- C6: removing a torrent of a well-formed session drops exactly its handle:
the handle is gone, the handles that remain are the other ones in their
original order, and the engine receives one `remove_torrent` call whose flag
is `delete_files` exactly when `deleteFiles` is true; a null torrent or one
without handle changes nothing; and removing the torrent that an add just
returned restores the owned handles to what they were before the add. -/
theorem LTSessionRemoveTorrent_spec (session : LTSession) (deleteFiles : Bool)
    (hwf : session.wellFormed) :
    (∀ torrent p, torrent.handle = some p → p ∈ session.handles →
      p ∉ (LTSessionRemoveTorrent session (some torrent) deleteFiles).handles ∧
      p.addr ∉ (LTSessionRemoveTorrent session (some torrent) deleteFiles).addrs ∧
      (LTSessionRemoveTorrent session (some torrent) deleteFiles).handles =
        session.handles.filter (fun h => h.addr != p.addr) ∧
      (∀ h ∈ session.handles, h ≠ p →
        h ∈ (LTSessionRemoveTorrent session (some torrent) deleteFiles).handles) ∧
      (LTSessionRemoveTorrent session (some torrent) deleteFiles).handles.Sublist
        session.handles ∧
      (LTSessionRemoveTorrent session (some torrent) deleteFiles).session.calls =
        session.session.calls ++
          [lt.EngineCall.remove_torrent p.target (if deleteFiles then lt.delete_files else 0)] ∧
      ((if deleteFiles then lt.delete_files else 0) = lt.delete_files ↔ deleteFiles = true) ∧
      (LTSessionRemoveTorrent session (some torrent) deleteFiles).wellFormed) ∧
    LTSessionRemoveTorrent session none deleteFiles = session ∧
    (∀ sh, LTSessionRemoveTorrent session (some ⟨none, sh⟩) deleteFiles = session) ∧
    (∀ (env : lt.Engine) (sh : Nat) (source savePath : String) (newAddr : Nat),
      newAddr ∉ session.addrs →
      (LTSessionRemoveTorrent
        (LTSessionAddTorrent env sh session source savePath newAddr).2
        (LTSessionAddTorrent env sh session source savePath newAddr).1 deleteFiles).handles =
        session.handles ∧
      (LTSessionRemoveTorrent
        (LTSessionAddMagnetUri env sh session source savePath newAddr).2
        (LTSessionAddMagnetUri env sh session source savePath newAddr).1 deleteFiles).handles =
        session.handles) := by
  refine ⟨?_, rfl, fun _ => rfl, ?_⟩
  · intro torrent p hp hmem
    have hh : (LTSessionRemoveTorrent session (some torrent) deleteFiles).handles =
        session.handles.filter (fun h => h.addr != p.addr) := by
      rw [remove_handles session torrent p deleteFiles hp]
      exact eraseP_addr_eq_filter _ _ hwf
    have hsub : (session.handles.filter (fun h => h.addr != p.addr)).Sublist
        session.handles := List.filter_sublist _
    refine ⟨?_, ?_, hh, ?_, hh ▸ hsub, ?_, ?_, ?_⟩
    · rw [hh]; simp
    · simp only [LTSession.addrs, hh, List.mem_map, not_exists, not_and]
      intro x hx
      have := (List.mem_filter.1 hx).2
      simpa using this
    · intro h hm hne
      rw [hh]
      refine List.mem_filter.2 ⟨hm, ?_⟩
      have : h.addr ≠ p.addr := fun e => hne (List.inj_on_of_nodup_map hwf hm hmem e)
      simpa using this
    · simp [LTSessionRemoveTorrent, hp, lt.session.call]
    · cases deleteFiles <;> decide
    · simp only [LTSession.wellFormed, LTSession.addrs, hh]
      exact List.Nodup.sublist (hsub.map _) hwf
  · intro env sh source savePath newAddr hfresh
    constructor
    · simp only [LTSessionAddTorrent]
      cases env.torrent_info source with
      | none => rfl
      | some ti => exact remove_after_add _ _ _ _ _ _ hfresh
    · simp only [LTSessionAddMagnetUri]
      cases env.parse_magnet_uri source with
      | none => rfl
      | some params => exact remove_after_add _ _ _ _ _ _ hfresh

theorem LTSessionRemoveTorrent_spec_witness :
    twoTorrentSession.wellFormed ∧
    (LTSessionRemoveTorrent twoTorrentSession
      (some ⟨some ⟨2, { id := 0, is_valid := true, status := idleStatus }⟩, 1⟩) true).handles =
      twoTorrentSession.handles.filter (fun h => h.addr != 2) ∧
    (LTSessionRemoveTorrent twoTorrentSession
      (some ⟨some ⟨2, { id := 0, is_valid := true, status := idleStatus }⟩, 1⟩) true).session.calls =
      twoTorrentSession.session.calls ++
        [lt.EngineCall.remove_torrent { id := 0, is_valid := true, status := idleStatus }
          (if true = true then lt.delete_files else 0)] ∧
    4 ∉ twoTorrentSession.addrs ∧
    (LTSessionRemoveTorrent
      (LTSessionAddTorrent sampleEngine 1 twoTorrentSession "a.torrent" "/dl" 4).2
      (LTSessionAddTorrent sampleEngine 1 twoTorrentSession "a.torrent" "/dl" 4).1 true).handles =
      twoTorrentSession.handles :=
  have hwf : twoTorrentSession.wellFormed := by
    simp [LTSession.wellFormed, LTSession.addrs, twoTorrentSession]
  have hfresh : 4 ∉ twoTorrentSession.addrs := by
    simp [LTSession.addrs, twoTorrentSession]
  have hrem := (LTSessionRemoveTorrent_spec twoTorrentSession true hwf).1
    ⟨some ⟨2, { id := 0, is_valid := true, status := idleStatus }⟩, 1⟩
    ⟨2, { id := 0, is_valid := true, status := idleStatus }⟩ rfl
    (by simp [twoTorrentSession])
  ⟨hwf, hrem.2.2.1, hrem.2.2.2.2.2.1, hfresh,
    ((LTSessionRemoveTorrent_spec twoTorrentSession true hwf).2.2.2
      sampleEngine 1 "a.torrent" "/dl" 4 hfresh).1⟩

/-! ## Alerts -/

end LibTorrentBridge
